import Mathlib

/-
Verification development for the generation-orchestration engine of the
youtube-tool repository.  The source functions from
src/main/GenerateAudio.ts, src/main/GenerateScript.ts and
src/main/GenerateImage.ts are shallowly embedded below: text is `List Char`,
byte buffers are `List Nat` (one entry per byte, values 0..255), stateful
loops are explicit recursion over the list of stubbed remote responses, and
wall-clock instants are `Int` (milliseconds, as produced by Date.now()).
-/

namespace YTool

/-- Whitespace test matching the character class recognized by the JavaScript
regular-expression class backslash-s and by String.prototype.trim: space, tab,
line feed, carriage return, vertical tab, form feed, and the ECMAScript Unicode
space characters. -/
def isWS (c : Char) : Bool :=
  c == ' ' || c == '\t' || c == '\n' || c == '\r' ||
  c.toNat == 11 || c.toNat == 12 ||
  c.toNat == 160 || c.toNat == 5760 ||
  (decide (8192 ≤ c.toNat) && decide (c.toNat ≤ 8202)) ||
  c.toNat == 8232 || c.toNat == 8233 || c.toNat == 8239 ||
  c.toNat == 8287 || c.toNat == 12288 || c.toNat == 65279

/-- The sentence-terminal characters of the chunker regex lookbehind. -/
def isSentenceEnd (c : Char) : Bool :=
  c == '.' || c == '!' || c == '?'

/-- Remove leading whitespace (the left half of String.prototype.trim). -/
def ltrim (l : List Char) : List Char := l.dropWhile isWS

/-- Remove trailing whitespace (the right half of String.prototype.trim). -/
def rtrim (l : List Char) : List Char := (l.reverse.dropWhile isWS).reverse

/-- String.prototype.trim: remove leading and trailing whitespace. -/
def trim (l : List Char) : List Char := rtrim (ltrim l)

/-- Erase every whitespace character, keeping the rest in order. -/
def removeWS (l : List Char) : List Char := l.filter (fun c => !(isWS c))

/-- Engine of content.split of the regex: lookbehind sentence-end, then one or
more whitespace.  The second argument is `some acc` while accumulating the
current segment (in reverse), and `none` while consuming a maximal whitespace
run that was recognized as a separator.  A separator starts at a whitespace
character whose predecessor (the most recently accumulated character) is
sentence-terminal punctuation; the separator is greedy, exactly like the
regex quantifier. -/
def sepCond (c : Char) (acc : List Char) : Bool :=
  isWS c && (match acc with | p :: _ => isSentenceEnd p | [] => false)

def splitGo : List Char → Option (List Char) → List (List Char)
  | [], none => [[]]
  | [], some acc => [acc.reverse]
  | c :: rest, none =>
    if isWS c then splitGo rest none else splitGo rest (some [c])
  | c :: rest, some acc =>
    if sepCond c acc then
      acc.reverse :: splitGo rest none
    else
      splitGo rest (some (c :: acc))

/-- content.split of the sentence-boundary regex, as used by
splitContentIntoChunks in GenerateAudio.ts. -/
def splitSentences (l : List Char) : List (List Char) := splitGo l (some [])

/-- The sentence-packing loop of splitContentIntoChunks (GenerateAudio.ts,
lines 139-155): state is the remaining sentences, the current chunk being
grown, and the chunks already closed.  The overflow test concatenates the
current chunk and the next sentence without the joining space, exactly as the
source expression (currentChunk + sentence).length does, while the append in
the else branch inserts a single space between sentences. -/
def chunksLoop (maxChunkSize : Nat) :
    List (List Char) → List Char → List (List Char) → List (List Char)
  | [], cur, chunks =>
    if (trim cur).isEmpty then chunks else chunks ++ [trim cur]
  | s :: rest, cur, chunks =>
    if maxChunkSize < (cur ++ s).length ∧ cur ≠ [] then
      chunksLoop maxChunkSize rest s (chunks ++ [trim cur])
    else
      chunksLoop maxChunkSize rest (if cur.isEmpty then s else cur ++ ' ' :: s) chunks

/-- splitContentIntoChunks from GenerateAudio.ts (lines 132-158). -/
def splitContentIntoChunks (content : List Char) (maxChunkSize : Nat) : List (List Char) :=
  chunksLoop maxChunkSize (splitSentences (trim content)) [] []

/-! ### WAV codec (GenerateAudio.ts lines 160-284) -/

/-- The three format fields read by extractWavFormat. -/
structure WavConversionOptions where
  numChannels : Nat
  sampleRate : Nat
  bitsPerSample : Nat
deriving DecidableEq

/-- Buffer.readUInt16LE: little-endian 16-bit read at a byte offset.  Node
throws on an out-of-bounds read; the claims below only read inside buffers of
length at least 44, where the default value of getD is never used. -/
def readUInt16LE (b : List Nat) (off : Nat) : Nat :=
  b.getD off 0 + 256 * b.getD (off + 1) 0

/-- Buffer.readUInt32LE: little-endian 32-bit read at a byte offset. -/
def readUInt32LE (b : List Nat) (off : Nat) : Nat :=
  b.getD off 0 + 256 * b.getD (off + 1) 0 + 65536 * b.getD (off + 2) 0 +
    16777216 * b.getD (off + 3) 0

/-- extractWavFormat from GenerateAudio.ts (lines 204-215): reads channel
count at offset 22, sample rate at offset 24 and bit depth at offset 34. -/
def extractWavFormat (b : List Nat) : WavConversionOptions :=
  { numChannels := readUInt16LE b 22
    sampleRate := readUInt32LE b 24
    bitsPerSample := readUInt16LE b 34 }

/-- createWavHeader from GenerateAudio.ts (lines 257-284): the canonical
44-byte RIFF/WAVE header.  Multi-byte fields are written little-endian; Node
Buffer.writeUInt32LE and writeUInt16LE throw a RangeError on out-of-range or
non-integer values, and on every in-range value they agree with the
reductions modulo 256 taken here.  The reductions are therefore faithful only
on the in-range domain; joinWritesInRange below delimits that domain, and the
join theorem asserts output only inside it. -/
def createWavHeader (dataLength : Nat) (o : WavConversionOptions) : List Nat :=
  let chunkSize := 36 + dataLength
  let byteRate := o.sampleRate * o.numChannels * o.bitsPerSample / 8
  let blockAlign := o.numChannels * o.bitsPerSample / 8
  [82, 73, 70, 70,
   chunkSize % 256, chunkSize / 256 % 256, chunkSize / 65536 % 256,
   chunkSize / 16777216 % 256,
   87, 65, 86, 69,
   102, 109, 116, 32,
   16, 0, 0, 0,
   1, 0,
   o.numChannels % 256, o.numChannels / 256 % 256,
   o.sampleRate % 256, o.sampleRate / 256 % 256, o.sampleRate / 65536 % 256,
   o.sampleRate / 16777216 % 256,
   byteRate % 256, byteRate / 256 % 256, byteRate / 65536 % 256,
   byteRate / 16777216 % 256,
   blockAlign % 256, blockAlign / 256 % 256,
   o.bitsPerSample % 256, o.bitsPerSample / 256 % 256,
   100, 97, 116, 97,
   dataLength % 256, dataLength / 256 % 256, dataLength / 65536 % 256,
   dataLength / 16777216 % 256]

/-- joinWavFiles from GenerateAudio.ts (lines 160-202), with file contents
passed in place of file paths.  The result is the byte content written to the
output path, and `none` means the function returned without writing anything
(the empty-input early return at line 164).  For a single fragment the source
copies the file verbatim; otherwise it takes the format of the first fragment,
strips the first 44 bytes of every fragment, and prepends a fresh header for
the combined data length.  The null-options throw at line 193 is unreachable
here because the loop body always runs at least once when two or more files
are given. -/
def joinWavFiles : List (List Nat) → Option (List Nat)
  | [] => none
  | [f] => some f
  | f :: g :: rest =>
    let files := f :: g :: rest
    let wavOptions := extractWavFormat f
    let audioDataChunks := files.map (fun b => b.drop 44)
    let totalDataLength := (audioDataChunks.map List.length).sum
    some (createWavHeader totalDataLength wavOptions ++ audioDataChunks.flatten)

/-- The conditions under which the source's joinWavFiles completes without a
Node RangeError, so that the modular reductions in createWavHeader coincide
with the source's Buffer writes: the first fragment is a genuine byte buffer
(entries below 256) long enough for the three header reads at offsets 22, 24
and 34; the derived byteRate and blockAlign are integral (Buffer write
methods reject non-integer values) and fit 32 and 16 bits respectively; and
the RIFF chunk size 36 + dataLength fits 32 bits (which also bounds the
data-length field itself).  The three format fields always fit their
destinations for a byte buffer, because 16- and 32-bit reads of bytes are
bounded by construction. -/
def joinWritesInRange (f : List Nat) (dataLength : Nat) : Prop :=
  44 ≤ f.length ∧
  (∀ x ∈ f, x < 256) ∧
  (extractWavFormat f).sampleRate * (extractWavFormat f).numChannels *
      (extractWavFormat f).bitsPerSample % 8 = 0 ∧
  (extractWavFormat f).numChannels * (extractWavFormat f).bitsPerSample % 8 = 0 ∧
  (extractWavFormat f).sampleRate * (extractWavFormat f).numChannels *
      (extractWavFormat f).bitsPerSample / 8 < 2 ^ 32 ∧
  (extractWavFormat f).numChannels * (extractWavFormat f).bitsPerSample / 8 < 2 ^ 16 ∧
  36 + dataLength < 2 ^ 32

/-! ### Backoff retrier (GenerateAudio.ts lines 44-99) -/

/-- One attempt of the wrapped operation: success with a value, or a thrown
error carrying a numeric status and, for quota errors, the retry delay in
seconds parsed from the google.rpc.RetryInfo detail when present. -/
inductive AttemptResult (α : Type) where
  | ok (v : α)
  | fail (status : Nat) (retryHintSeconds : Option Nat)

/-- What retryWithBackoff surfaces to its caller: the operation's value, a
rethrown raw error with its status, or the dedicated final
Max-retries-exceeded error thrown after the loop. -/
inductive RetryOutcome (α : Type) where
  | ok (v : α)
  | raised (status : Nat)
  | maxRetriesExceeded
deriving DecidableEq

/-- The delay used for a 429 quota failure: the server-suggested seconds
value converted to milliseconds when the RetryInfo hint was present and
parsable, otherwise the exponential fallback (uncapped, unlike the 503
path). -/
def hintDelay (hint : Option Nat) (baseDelay attempt : Nat) : Nat :=
  match hint with
  | some secs => secs * 1000
  | none => baseDelay * 2 ^ attempt

/-- The attempt loop of retryWithBackoff.  `attempt` is the loop counter and
`fuel` the number of remaining loop iterations (the loop runs for attempt = 0
up to and including maxRetries).  The second component collects the backoff
delays slept, in order: for a 503 the exponential delay capped at 120000 ms,
for a 429 the delay given by hintDelay. -/
def retryAux (fn : Nat → AttemptResult α) (maxRetries baseDelay : Nat) :
    Nat → Nat → RetryOutcome α × List Nat
  | _, 0 => (RetryOutcome.maxRetriesExceeded, [])
  | attempt, fuel + 1 =>
    match fn attempt with
    | AttemptResult.ok v => (RetryOutcome.ok v, [])
    | AttemptResult.fail status hint =>
      if status = 503 ∧ attempt < maxRetries then
        let d := min (baseDelay * 2 ^ attempt) 120000
        let r := retryAux fn maxRetries baseDelay (attempt + 1) fuel
        (r.1, d :: r.2)
      else if status = 429 ∧ attempt < maxRetries then
        let d := hintDelay hint baseDelay attempt
        let r := retryAux fn maxRetries baseDelay (attempt + 1) fuel
        (r.1, d :: r.2)
      else
        (RetryOutcome.raised status, [])

/-- retryWithBackoff from GenerateAudio.ts (lines 44-99): run the operation
for at most maxRetries + 1 attempts. -/
def retryWithBackoff (fn : Nat → AttemptResult α) (maxRetries baseDelay : Nat) :
    RetryOutcome α × List Nat :=
  retryAux fn maxRetries baseDelay 0 (maxRetries + 1)

/-! ### Rate limiter (GenerateAudio.ts lines 7-41) -/

/-- The eviction filter at line 22: keep timestamps strictly younger than the
window. -/
def evictOld (windowMs : Int) (requests : List Int) (now : Int) : List Int :=
  requests.filter (fun t => decide (now - t < windowMs))

/-- Math.min over the spread of a nonempty timestamp array (line 28).  The
body below is only consulted on a nonempty list: the branch computing it is
guarded by maxRequests being at most the list length, and every limiter in
the source is constructed with maxRequests at least 1. -/
def oldestOf (l : List Int) : Int :=
  match l with
  | [] => 0
  | t :: ts => ts.foldl min t

/-- RateLimiter.waitIfNeeded (GenerateAudio.ts lines 18-40) over an explicit
clock: given the stored timestamps and the instant `now` observed on entry,
return the time slept and the new timestamp list.  The wait is
windowMs - (now - oldest) + 1000 when the post-eviction count has reached
maxRequests (and that amount is positive), else zero; the timestamp recorded
at line 39 is the entry instant `now`, pushed after any wait. -/
def waitIfNeeded (maxRequests : Nat) (windowMs : Int) (requests : List Int)
    (now : Int) : Int × List Int :=
  let remaining := evictOld windowMs requests now
  let wait :=
    if maxRequests ≤ remaining.length then
      let oldest := oldestOf remaining
      let w := windowMs - (now - oldest) + 1000
      if 0 < w then w else 0
    else 0
  (wait, remaining ++ [now])

/-- A sequence of admissions through one limiter instance: thread the
timestamp list through waitIfNeeded at each arrival instant, collecting the
imposed waits. -/
def runAdmits (maxRequests : Nat) (windowMs : Int) :
    List Int → List Int → List Int × List Int
  | [], st => ([], st)
  | t :: ts, st =>
    let r := waitIfNeeded maxRequests windowMs st t
    let rest := runAdmits maxRequests windowMs ts r.2
    (r.1 :: rest.1, rest.2)

/-! ### Script sequencer (GenerateScript.ts lines 11-173) -/

/-- One conversation turn of the history sent to the remote service. -/
inductive Turn where
  | user (content : List Char)
  | model (content : List Char)

/-- One stubbed remote response for a section request: a response whose text
field is present (text may still be the empty string, which the source's
truthiness test treats as missing), a response with the text field absent, or
a thrown error with its status. -/
inductive Resp where
  | text (t : List Char)
  | noText
  | err (status : Nat)

/-- The fixed CONTINUE marker pushed as the requester turn of every section
request. -/
def continueMarker : List Char := "CONTINUE".toList

/-- The fixed section delimiter appended after every section of the
accumulated script (three newlines). -/
def delim : List Char := "\n\n\n".toList

/-- The mutable state of the section loop of GenerateScript. -/
structure ScriptState where
  history : List Turn
  fullScript : List Char
  sectionCount : Nat
  events : List (Nat × List Char)

/-- Whether the sequencer treats a stub response as a successful section:
the text field must be present and truthy (non-empty). -/
def isSuccessResp : Resp → Bool
  | Resp.text t => !t.isEmpty
  | Resp.noText => false
  | Resp.err _ => false

/-- The while loop of GenerateScript.ts (lines 79-151), consuming one stub
response per iteration.  Each iteration first pushes the CONTINUE requester
turn; on a successful non-empty response it appends the trimmed content as a
responder turn, extends the accumulated script with the content plus the
delimiter, emits the section event and advances the counter; on a missing or
empty text field, or a thrown error, it pops the speculative CONTINUE turn
(conversationHistory.pop at lines 125 and 148) and retries the same index.
The loop exits once the counter passes 15; if the stub list is exhausted
first, the state reached so far is returned (the real loop would still be
running). -/
def runSections : List Resp → ScriptState → ScriptState
  | [], st => st
  | Resp.text t :: rest, st =>
    if 15 < st.sectionCount then st
    else if t.isEmpty then
      runSections rest
        { st with history := (st.history ++ [Turn.user continueMarker]).dropLast }
    else
      runSections rest
        { history := (st.history ++ [Turn.user continueMarker]) ++ [Turn.model (trim t)]
          fullScript := st.fullScript ++ trim t ++ delim
          sectionCount := st.sectionCount + 1
          events := st.events ++ [(st.sectionCount, trim t)] }
  | Resp.noText :: rest, st =>
    if 15 < st.sectionCount then st
    else
      runSections rest
        { st with history := (st.history ++ [Turn.user continueMarker]).dropLast }
  | Resp.err _ :: rest, st =>
    if 15 < st.sectionCount then st
    else
      runSections rest
        { st with history := (st.history ++ [Turn.user continueMarker]).dropLast }

/-- The conversation history right after the outline step (GenerateScript.ts
lines 64-73): the caller prompt as requester turn and the outline as
responder turn, with the loop about to request section 1. -/
def initState (prompt outline : List Char) : ScriptState :=
  { history := [Turn.user prompt, Turn.model outline]
    fullScript := []
    sectionCount := 1
    events := [] }

/-- GenerateScript.ts end to end over stubbed responses: the outline call
must return a truthy text (otherwise the run throws, modeled as none); the
outline is trimmed and recorded, then the section loop runs and the function
returns fullScript.trim() together with the final loop state. -/
def generateScriptRun (outlineResp : Resp) (sectionResps : List Resp)
    (prompt : List Char) : Option (List Char × ScriptState) :=
  match outlineResp with
  | Resp.text t =>
    if t.isEmpty then none
    else
      some (trim (runSections sectionResps (initState prompt (trim t))).fullScript,
        runSections sectionResps (initState prompt (trim t)))
  | Resp.noText => none
  | Resp.err _ => none

/-! ### Image batch generator (GenerateImage.ts) -/

/-- String.prototype.split with a one-character separator, as used with the
newline separator by GenerateImagePrompts. -/
def splitLinesGo : List Char → List Char → List (List Char)
  | [], acc => [acc.reverse]
  | c :: rest, acc =>
    if c == '\n' then acc.reverse :: splitLinesGo rest []
    else splitLinesGo rest (c :: acc)

/-- Derive the sub-prompt list from the derivation response text
(GenerateImage.ts lines 36-42): split on newlines, trim each line, discard
empties. -/
def derivePrompts (text : List Char) : List (List Char) :=
  ((splitLinesGo text []).map trim).filter (fun p => !p.isEmpty)

/-- Stubbed outcome of one generateImages call: a thrown error, or the
generatedImages array in which each entry may lack usable image bytes. -/
inductive ImageGenResult where
  | err
  | ok (imgs : List (Option (List Nat)))

/-- The inner image-saving loop (GenerateImage.ts lines 102-132): walk the
generated images of one sub-prompt, skipping entries without usable bytes and
recording the artifact path for the rest.  A path is identified by the pair
(promptIndex, imgIndex), standing for the deterministic file name built from
those two indices. -/
def collectImagesFrom : List (Option (List Nat)) → Nat → Nat → List (Nat × Nat)
  | [], _, _ => []
  | some _ :: rest, i, j => (i, j) :: collectImagesFrom rest i (j + 1)
  | none :: rest, i, j => collectImagesFrom rest i (j + 1)

/-- The per-sub-prompt loop (GenerateImage.ts lines 72-140): process the
sub-prompts in order, skipping a sub-prompt whose generation throws or whose
response holds no images, and collecting the saved artifact paths of the
rest. -/
def processPrompts (results : Nat → ImageGenResult) :
    List (List Char) → Nat → List (Nat × Nat)
  | [], _ => []
  | _ :: rest, i =>
    (match results i with
     | ImageGenResult.err => []
     | ImageGenResult.ok imgs => collectImagesFrom imgs i 0) ++
      processPrompts results rest (i + 1)

/-- GenerateImage.ts lines 49-156 over a stubbed service: derive the
sub-prompts from the derivation response text, run the batch, and fail with
the dedicated error exactly when no image was saved (lines 141-143);
otherwise return the saved paths. -/
def generateImageBatch (text : List Char) (results : Nat → ImageGenResult) :
    Except (List Char) (List (Nat × Nat)) :=
  let saved := processPrompts results (derivePrompts text) 0
  if saved.isEmpty then Except.error ("No images were successfully generated.".toList)
  else Except.ok saved

/-- An image artifact for sub-prompt i, variant j, is produced during the
batch: the sub-prompt exists, its generation call succeeds, and entry j of
the returned array carries usable bytes. -/
def producedAt (prompts : List (List Char)) (results : Nat → ImageGenResult)
    (i j : Nat) : Prop :=
  i < prompts.length ∧
    ∃ imgs, results i = ImageGenResult.ok imgs ∧ ∃ b, imgs.get? j = some (some b)

/-! ### Toolkit: dropWhile, trim and removeWS lemmas -/

theorem length_dropWhile_le (p : α → Bool) (l : List α) :
    (l.dropWhile p).length ≤ l.length := by
  induction l with
  | nil => simp
  | cons a t ih =>
    cases h : p a with
    | true => simp [List.dropWhile_cons, h]; omega
    | false => simp [List.dropWhile_cons, h]

theorem dropWhile_head_false {p : α → Bool} :
    ∀ {l : List α} {a : α} {t : List α}, l.dropWhile p = a :: t → p a = false
  | [], _, _, h => by simp at h
  | c :: r, a, t, h => by
    cases hc : p c with
    | true =>
      simp only [List.dropWhile_cons, hc, if_true] at h
      exact dropWhile_head_false h
    | false =>
      simp only [List.dropWhile_cons, hc, if_false] at h
      cases h
      exact hc

theorem exists_dropWhile_append (p : α → Bool) (l : List α) :
    ∃ u, u ++ l.dropWhile p = l := by
  induction l with
  | nil => exact ⟨[], rfl⟩
  | cons a t ih =>
    cases h : p a with
    | true =>
      obtain ⟨u, hu⟩ := ih
      exact ⟨a :: u, by simp [List.dropWhile_cons, h, hu]⟩
    | false => exact ⟨[], by simp [List.dropWhile_cons, h]⟩

theorem dropWhile_append_of_all {p : α → Bool} {x : List α} (y : List α)
    (h : ∀ a ∈ x, p a = true) : (x ++ y).dropWhile p = y.dropWhile p := by
  induction x with
  | nil => simp
  | cons a t ih =>
    have ha : p a = true := h a (by simp)
    simp only [List.cons_append, List.dropWhile_cons, ha, if_true]
    exact ih (fun b hb => h b (by simp [hb]))

theorem dropWhile_append_of_cons {p : α → Bool} {x : List α} {a : α} {t : List α}
    (y : List α) (h : x.dropWhile p = a :: t) :
    (x ++ y).dropWhile p = a :: (t ++ y) := by
  induction x with
  | nil => simp at h
  | cons c r ih =>
    cases hc : p c with
    | true =>
      simp only [List.dropWhile_cons, hc, if_true] at h
      simp only [List.cons_append, List.dropWhile_cons, hc, if_true]
      exact ih h
    | false =>
      simp only [List.dropWhile_cons, hc, if_false] at h
      cases h
      simp [List.dropWhile_cons, hc]

theorem dropWhile_idem (p : α → Bool) (l : List α) :
    (l.dropWhile p).dropWhile p = l.dropWhile p := by
  cases h : l.dropWhile p with
  | nil => rfl
  | cons a t =>
    have := dropWhile_head_false h
    simp [List.dropWhile_cons, this]

theorem ltrim_cons_head {a : Char} {t : List Char} (h : ltrim (a :: t) = a :: t) :
    isWS a = false := by
  cases hc : isWS a with
  | false => rfl
  | true =>
    unfold ltrim at h
    simp only [List.dropWhile_cons, hc, if_true] at h
    have h1 := length_dropWhile_le isWS t
    have h2 : (t.dropWhile isWS).length = (a :: t).length := by rw [h]
    simp at h2
    omega

theorem ltrim_cons_of_neg {a : Char} {t : List Char} (h : isWS a = false) :
    ltrim (a :: t) = a :: t := by
  simp [ltrim, List.dropWhile_cons, h]

theorem exists_rtrim_append (l : List Char) : ∃ v, l = rtrim l ++ v := by
  obtain ⟨u, hu⟩ := exists_dropWhile_append isWS l.reverse
  refine ⟨u.reverse, ?_⟩
  have h2 : l.reverse.reverse = (u ++ l.reverse.dropWhile isWS).reverse := by rw [hu]
  simpa [rtrim, List.reverse_append] using h2

theorem rtrim_idem (l : List Char) : rtrim (rtrim l) = rtrim l := by
  unfold rtrim
  rw [List.reverse_reverse, dropWhile_idem]

theorem rtrim_append_allWS {d : List Char} (x : List Char)
    (h : ∀ c ∈ d, isWS c = true) : rtrim (x ++ d) = rtrim x := by
  unfold rtrim
  rw [List.reverse_append, dropWhile_append_of_all _ (fun c hc => h c (by simpa using hc))]

theorem rtrim_append_left {y : List Char} (x : List Char)
    (h : ∃ c ∈ y, isWS c = false) : rtrim (x ++ y) = x ++ rtrim y := by
  have hne : y.reverse.dropWhile isWS ≠ [] := by
    rw [Ne, List.dropWhile_eq_nil_iff]
    intro hall
    obtain ⟨c, hc, hcf⟩ := h
    have := hall c (by simpa using hc)
    simp [this] at hcf
  cases hd : y.reverse.dropWhile isWS with
  | nil => exact absurd hd hne
  | cons a t =>
    unfold rtrim
    rw [List.reverse_append, dropWhile_append_of_cons _ hd, hd]
    simp [List.reverse_append]

theorem trim_nil : trim [] = [] := rfl

theorem ltrim_trim (l : List Char) : ltrim (trim l) = trim l := by
  cases h : trim l with
  | nil => rfl
  | cons a t =>
    apply ltrim_cons_of_neg
    unfold trim at h
    obtain ⟨v, hv⟩ := exists_rtrim_append (ltrim l)
    rw [h] at hv
    have : (ltrim l).dropWhile isWS = a :: (t ++ v) := by
      have h0 : ltrim l = ltrim (ltrim l) := (dropWhile_idem isWS l).symm
      calc (ltrim l).dropWhile isWS = ltrim (ltrim l) := rfl
        _ = ltrim l := dropWhile_idem isWS l
        _ = a :: (t ++ v) := by simpa using hv
    exact dropWhile_head_false this

theorem rtrim_trim (l : List Char) : rtrim (trim l) = trim l := rtrim_idem _

theorem trim_trim (l : List Char) : trim (trim l) = trim l := by
  unfold trim
  rw [show ltrim (rtrim (ltrim l)) = rtrim (ltrim l) from ltrim_trim l, rtrim_idem]

theorem trim_head_not_ws {l : List Char} {a : Char} {t : List Char}
    (h : trim l = a :: t) : isWS a = false := by
  have h1 : ltrim (trim l) = trim l := ltrim_trim l
  rw [h] at h1
  exact ltrim_cons_head h1

theorem removeWS_append (x y : List Char) :
    removeWS (x ++ y) = removeWS x ++ removeWS y := by
  simp [removeWS]

theorem removeWS_dropWhile (l : List Char) :
    removeWS (l.dropWhile isWS) = removeWS l := by
  induction l with
  | nil => rfl
  | cons a t ih =>
    cases h : isWS a with
    | true =>
      rw [List.dropWhile_cons, if_pos (by simp [h]), ih]
      simp [removeWS, List.filter_cons, h]
    | false => simp [List.dropWhile_cons, h]

theorem removeWS_reverse (l : List Char) :
    removeWS l.reverse = (removeWS l).reverse := by
  simp [removeWS]

theorem removeWS_ltrim (l : List Char) : removeWS (ltrim l) = removeWS l :=
  removeWS_dropWhile l

theorem removeWS_rtrim (l : List Char) : removeWS (rtrim l) = removeWS l := by
  unfold rtrim
  rw [removeWS_reverse, removeWS_dropWhile, removeWS_reverse, List.reverse_reverse]

theorem removeWS_trim (l : List Char) : removeWS (trim l) = removeWS l := by
  unfold trim
  rw [removeWS_rtrim, removeWS_ltrim]

theorem trim_eq_nil_iff (l : List Char) :
    trim l = [] ↔ ∀ c ∈ l, isWS c = true := by
  constructor
  · intro h c hc
    have h1 : removeWS l = [] := by rw [← removeWS_trim, h]; rfl
    rw [removeWS, List.filter_eq_nil_iff] at h1
    have := h1 c hc
    simpa using this
  · intro h
    have h1 : ltrim l = [] := by
      rw [ltrim, List.dropWhile_eq_nil_iff]
      exact h
    rw [trim, h1]
    rfl

theorem trim_ne_nil {l : List Char} (h : ∃ c ∈ l, isWS c = false) :
    trim l ≠ [] := by
  rw [Ne, trim_eq_nil_iff]
  intro hall
  obtain ⟨c, hc, hf⟩ := h
  rw [hall c hc] at hf
  cases hf

/-! ### Sentence splitting and chunking lemmas -/

theorem removeWS_cons (c : Char) (l : List Char) :
    removeWS (c :: l) = removeWS [c] ++ removeWS l := by
  rw [show (c :: l) = [c] ++ l from rfl, removeWS_append]

theorem removeWS_singleton_ws {c : Char} (h : isWS c = true) : removeWS [c] = [] := by
  simp [removeWS, List.filter_cons, h]

theorem removeWS_nil : removeWS [] = [] := rfl

theorem sentenceEnd_not_ws {c : Char} (h : isSentenceEnd c = true) : isWS c = false := by
  simp only [isSentenceEnd, Bool.or_eq_true, beq_iff_eq] at h
  rcases h with (h | h) | h <;> subst h <;> decide

theorem sepCond_eq_true {c : Char} {acc : List Char} (h : sepCond c acc = true) :
    isWS c = true ∧ ∃ p ps, acc = p :: ps ∧ isSentenceEnd p = true := by
  unfold sepCond at h
  rw [Bool.and_eq_true] at h
  refine ⟨h.1, ?_⟩
  cases acc with
  | nil => exact absurd h.2 (by simp)
  | cons p ps => exact ⟨p, ps, rfl, h.2⟩

theorem splitGo_flatten (l : List Char) : ∀ mode : Option (List Char),
    removeWS (splitGo l mode).flatten =
      (match mode with
       | none => []
       | some acc => removeWS acc.reverse) ++ removeWS l := by
  induction l with
  | nil =>
    intro mode
    cases mode with
    | none => simp [splitGo, removeWS]
    | some acc => simp [splitGo, removeWS_nil]
  | cons c rest ih =>
    intro mode
    cases mode with
    | none =>
      rw [show splitGo (c :: rest) none =
        (if isWS c then splitGo rest none else splitGo rest (some [c])) from rfl]
      cases h : isWS c with
      | true =>
        rw [if_pos rfl, ih none, removeWS_cons c rest, removeWS_singleton_ws h]
        rfl
      | false =>
        rw [if_neg Bool.false_ne_true, ih (some [c]), removeWS_cons c rest]
        rfl
    | some acc =>
      rw [show splitGo (c :: rest) (some acc) =
        (if sepCond c acc then acc.reverse :: splitGo rest none
         else splitGo rest (some (c :: acc))) from rfl]
      cases hcond : sepCond c acc with
      | true =>
        rw [if_pos rfl, removeWS_cons c rest]
        have hws : isWS c = true := (sepCond_eq_true hcond).1
        simp only [List.flatten_cons, removeWS_append, ih none,
          removeWS_singleton_ws hws]
      | false =>
        rw [if_neg Bool.false_ne_true, ih (some (c :: acc)), removeWS_cons c rest]
        simp [List.reverse_cons, removeWS_append]

theorem splitSentences_flatten (l : List Char) :
    removeWS (splitSentences l).flatten = removeWS l := by
  have := splitGo_flatten l (some [])
  simpa [splitSentences, removeWS] using this

theorem chunksLoop_flatten (maxChunkSize : Nat) : ∀ (sents : List (List Char))
    (cur : List Char) (chunks : List (List Char)),
    removeWS (chunksLoop maxChunkSize sents cur chunks).flatten =
      removeWS chunks.flatten ++ removeWS cur ++ removeWS sents.flatten := by
  intro sents
  induction sents with
  | nil =>
    intro cur chunks
    rw [chunksLoop]
    cases h : (trim cur).isEmpty with
    | true =>
      rw [if_pos rfl]
      have hnil : trim cur = [] := List.isEmpty_iff.mp (by rw [h])
      have h3 : removeWS cur = [] := by rw [← removeWS_trim, hnil]; rfl
      simp [h3, removeWS_nil]
    | false =>
      rw [if_neg Bool.false_ne_true]
      simp [removeWS_append, removeWS_trim, removeWS_nil]
  | cons s rest ih =>
    intro cur chunks
    rw [chunksLoop]
    by_cases hcond : maxChunkSize < (cur ++ s).length ∧ cur ≠ []
    · rw [if_pos hcond, ih]
      simp [removeWS_append, removeWS_trim]
    · rw [if_neg hcond, ih]
      cases hemp : cur.isEmpty with
      | true =>
        have hn : cur = [] := List.isEmpty_iff.mp (by rw [hemp])
        subst hn
        simp [removeWS]
      | false =>
        rw [if_neg Bool.false_ne_true]
        have hsp : removeWS (cur ++ ' ' :: s) = removeWS cur ++ removeWS s := by
          rw [removeWS_append, removeWS_cons ' ' s, removeWS_singleton_ws (by decide)]
          simp
        simp [hsp, removeWS_append]

theorem trim_length_le (l : List Char) : (trim l).length ≤ l.length := by
  have h1 : (rtrim (ltrim l)).length ≤ (ltrim l).length := by
    unfold rtrim
    rw [List.length_reverse]
    calc ((ltrim l).reverse.dropWhile isWS).length
        ≤ (ltrim l).reverse.length := length_dropWhile_le _ _
      _ = (ltrim l).length := List.length_reverse _
  calc (trim l).length = (rtrim (ltrim l)).length := rfl
    _ ≤ (ltrim l).length := h1
    _ ≤ l.length := length_dropWhile_le _ _

theorem chunksLoop_bound (maxChunkSize : Nat) (S : List Char → Prop) :
    ∀ (sents : List (List Char)) (cur : List Char) (chunks : List (List Char)),
    (∀ s ∈ sents, S s) →
    (cur.length ≤ maxChunkSize + 1 ∨ S cur) →
    (∀ c ∈ chunks, c.length ≤ maxChunkSize + 1 ∨ ∃ s, S s ∧ c = trim s) →
    ∀ c ∈ chunksLoop maxChunkSize sents cur chunks,
      c.length ≤ maxChunkSize + 1 ∨ ∃ s, S s ∧ c = trim s := by
  intro sents
  induction sents with
  | nil =>
    intro cur chunks _ hcur hchunks c hc
    rw [chunksLoop] at hc
    split at hc
    · exact hchunks c hc
    · rcases List.mem_append.mp hc with h | h
      · exact hchunks c h
      · have hc2 : c = trim cur := by simpa using h
        subst hc2
        rcases hcur with h1 | h1
        · exact Or.inl (le_trans (trim_length_le cur) h1)
        · exact Or.inr ⟨cur, h1, rfl⟩
  | cons s rest ih =>
    intro cur chunks hsents hcur hchunks c hc
    rw [chunksLoop] at hc
    by_cases hcond : maxChunkSize < (cur ++ s).length ∧ cur ≠ []
    · rw [if_pos hcond] at hc
      refine ih s (chunks ++ [trim cur])
        (fun x hx => hsents x (by simp [hx]))
        (Or.inr (hsents s (by simp))) ?_ c hc
      intro x hx
      rcases List.mem_append.mp hx with h | h
      · exact hchunks x h
      · have hx2 : x = trim cur := by simpa using h
        subst hx2
        rcases hcur with h1 | h1
        · exact Or.inl (le_trans (trim_length_le cur) h1)
        · exact Or.inr ⟨cur, h1, rfl⟩
    · rw [if_neg hcond] at hc
      cases hemp : cur.isEmpty with
      | true =>
        rw [if_pos (by rw [hemp]) ] at hc
        exact ih s chunks (fun x hx => hsents x (by simp [hx]))
          (Or.inr (hsents s (by simp))) hchunks c hc
      | false =>
        rw [if_neg (by rw [hemp]; exact Bool.false_ne_true)] at hc
        have hne : cur ≠ [] := by
          intro h0
          rw [h0] at hemp
          simp at hemp
        have hlen : (cur ++ s).length ≤ maxChunkSize := by
          rcases Nat.lt_or_ge maxChunkSize (cur ++ s).length with h1 | h1
          · exact absurd ⟨h1, hne⟩ hcond
          · exact h1
        refine ih (cur ++ ' ' :: s) chunks
          (fun x hx => hsents x (by simp [hx])) (Or.inl ?_) hchunks c hc
        rw [List.length_append] at hlen ⊢
        simp only [List.length_cons]
        omega

theorem splitGo_sentence_nonWS : ∀ (l : List Char) (mode : Option (List Char)),
    (mode = some [] → ∀ c, l.head? = some c → isWS c = false) →
    (∀ acc, mode = some acc → acc ≠ [] → ∃ c ∈ acc, isWS c = false) →
    ∀ s ∈ splitGo l mode, s = [] ∨ ∃ c ∈ s, isWS c = false := by
  intro l
  induction l with
  | nil =>
    intro mode h1 h2 s hs
    cases mode with
    | none =>
      have : s = [] := by simpa [splitGo] using hs
      exact Or.inl this
    | some acc =>
      have hsa : s = acc.reverse := by simpa [splitGo] using hs
      subst hsa
      cases acc with
      | nil => exact Or.inl rfl
      | cons a as =>
        obtain ⟨c, hc, hcf⟩ := h2 (a :: as) rfl (List.cons_ne_nil a as)
        exact Or.inr ⟨c, List.mem_reverse.mpr hc, hcf⟩
  | cons c rest ih =>
    intro mode h1 h2 s hs
    cases mode with
    | none =>
      rw [show splitGo (c :: rest) none =
        (if isWS c then splitGo rest none else splitGo rest (some [c])) from rfl] at hs
      cases h : isWS c with
      | true =>
        rw [h, if_pos rfl] at hs
        exact ih none (by intro h0; cases h0) (by intro acc h0; cases h0) s hs
      | false =>
        rw [h, if_neg Bool.false_ne_true] at hs
        refine ih (some [c]) (by intro h0; cases h0) ?_ s hs
        intro acc h0 _
        cases h0
        exact ⟨c, by simp, h⟩
    | some acc =>
      rw [show splitGo (c :: rest) (some acc) =
        (if sepCond c acc then acc.reverse :: splitGo rest none
         else splitGo rest (some (c :: acc))) from rfl] at hs
      cases hcond : sepCond c acc with
      | true =>
        rw [hcond, if_pos rfl] at hs
        obtain ⟨_, p, ps, hacc, hp⟩ := sepCond_eq_true hcond
        rcases List.mem_cons.mp hs with hsa | hsr
        · subst hsa
          subst hacc
          exact Or.inr ⟨p, List.mem_reverse.mpr (by simp), sentenceEnd_not_ws hp⟩
        · exact ih none (by intro h0; cases h0) (by intro a h0; cases h0) s hsr
      | false =>
        rw [hcond, if_neg Bool.false_ne_true] at hs
        refine ih (some (c :: acc)) (by intro h0; cases h0) ?_ s hs
        intro a h0 _
        cases h0
        cases acc with
        | nil =>
          have hcf := h1 rfl c rfl
          exact ⟨c, by simp, hcf⟩
        | cons b bs =>
          obtain ⟨x, hx, hxf⟩ := h2 (b :: bs) rfl (List.cons_ne_nil b bs)
          exact ⟨x, List.mem_cons.mpr (Or.inr hx), hxf⟩

theorem splitSentences_trim_good (content : List Char) :
    ∀ s ∈ splitSentences (trim content), s = [] ∨ ∃ c ∈ s, isWS c = false := by
  intro s hs
  refine splitGo_sentence_nonWS (trim content) (some []) ?_ ?_ s hs
  · intro _ c hc
    cases ht : trim content with
    | nil => rw [ht] at hc; cases hc
    | cons a t =>
      rw [ht] at hc
      have hca : a = c := by simpa using hc
      rw [← hca]
      exact trim_head_not_ws ht
  · intro acc h0 hne
    cases h0
    exact absurd rfl hne

theorem chunksLoop_good (maxChunkSize : Nat) :
    ∀ (sents : List (List Char)) (cur : List Char) (chunks : List (List Char)),
    (∀ s ∈ sents, s = [] ∨ ∃ c ∈ s, isWS c = false) →
    (cur = [] ∨ ∃ c ∈ cur, isWS c = false) →
    (∀ c ∈ chunks, c ≠ [] ∧ trim c = c) →
    ∀ c ∈ chunksLoop maxChunkSize sents cur chunks, c ≠ [] ∧ trim c = c := by
  intro sents
  induction sents with
  | nil =>
    intro cur chunks _ _ hchunks c hc
    rw [chunksLoop] at hc
    split at hc
    · exact hchunks c hc
    · rcases List.mem_append.mp hc with h | h
      · exact hchunks c h
      · have hc2 : c = trim cur := by simpa using h
        subst hc2
        next hemp =>
          refine ⟨by simpa [List.isEmpty_iff] using hemp, trim_trim cur⟩
  | cons s rest ih =>
    intro cur chunks hsents hcur hchunks c hc
    rw [chunksLoop] at hc
    by_cases hcond : maxChunkSize < (cur ++ s).length ∧ cur ≠ []
    · rw [if_pos hcond] at hc
      refine ih s (chunks ++ [trim cur])
        (fun x hx => hsents x (by simp [hx])) (hsents s (by simp)) ?_ c hc
      intro x hx
      rcases List.mem_append.mp hx with h | h
      · exact hchunks x h
      · have hx2 : x = trim cur := by simpa using h
        subst hx2
        rcases hcur with h1 | h1
        · exact absurd h1 hcond.2
        · exact ⟨trim_ne_nil h1, trim_trim cur⟩
    · rw [if_neg hcond] at hc
      cases hemp : cur.isEmpty with
      | true =>
        rw [if_pos (by rw [hemp])] at hc
        exact ih s chunks (fun x hx => hsents x (by simp [hx]))
          (hsents s (by simp)) hchunks c hc
      | false =>
        rw [if_neg (by rw [hemp]; exact Bool.false_ne_true)] at hc
        refine ih (cur ++ ' ' :: s) chunks
          (fun x hx => hsents x (by simp [hx])) (Or.inr ?_) hchunks c hc
        rcases hcur with h1 | h1
        · rw [h1] at hemp; simp at hemp
        · obtain ⟨x, hx, hxf⟩ := h1
          exact ⟨x, List.mem_append.mpr (Or.inl hx), hxf⟩

/-- C9: every chunk produced by splitContentIntoChunks is non-empty and
carries no leading or trailing whitespace (it equals its own trim), and an
input consisting only of whitespace yields the empty chunk list. -/
theorem chunker_chunks_trimmed_nonempty (content : List Char) (maxChunkSize : Nat) :
    (∀ c ∈ splitContentIntoChunks content maxChunkSize, c ≠ [] ∧ trim c = c) ∧
    ((∀ ch ∈ content, isWS ch = true) →
      splitContentIntoChunks content maxChunkSize = []) := by
  constructor
  · intro c hc
    exact chunksLoop_good maxChunkSize (splitSentences (trim content)) [] []
      (splitSentences_trim_good content) (Or.inl rfl) (by intro x hx; cases hx) c hc
  · intro hws
    have ht : trim content = [] := (trim_eq_nil_iff content).mpr hws
    rw [splitContentIntoChunks, ht]
    rw [show splitSentences [] = [[]] from rfl]
    simp [chunksLoop, trim_nil]

/-- Witness for C9 at a concrete whitespace-only input. -/
theorem chunker_chunks_trimmed_witness :
    splitContentIntoChunks ("  ".toList) 7 = [] :=
  (chunker_chunks_trimmed_nonempty ("  ".toList) 7).2 (by decide)

/-- C5 as stated is false: with limit 4 and input consisting of the two
sentences of two characters each, the single produced chunk has five
characters, exceeding the limit although no single sentence does. -/
theorem chunker_size_bound_counterexample :
    ∃ c ∈ splitContentIntoChunks ("a. b.".toList) 4,
      4 < c.length ∧
        ¬∃ s ∈ splitSentences (trim ("a. b.".toList)), c = trim s ∧ 4 < s.length := by
  decide

/-- C5 amended: every chunk is at most one character over the limit (the
overflow test at line 144 ignores the joining space inserted at line 148), and
the only chunks that may exceed even that are single sentences, emitted whole
after trimming. -/
theorem chunker_size_bound_amended (content : List Char) (maxChunkSize : Nat) :
    ∀ c ∈ splitContentIntoChunks content maxChunkSize,
      c.length ≤ maxChunkSize + 1 ∨
        ∃ s ∈ splitSentences (trim content), c = trim s := by
  intro c hc
  have := chunksLoop_bound maxChunkSize
    (fun s => s ∈ splitSentences (trim content))
    (splitSentences (trim content)) [] []
    (fun _ hs => hs) (Or.inl (by simp)) (by intro x hx; cases hx) c hc
  rcases this with h | ⟨s, hs, he⟩
  · exact Or.inl h
  · exact Or.inr ⟨s, hs, he⟩

/-- Witness for the amended C5 at a concrete input. -/
theorem chunker_size_bound_witness :
    ("ab".toList).length ≤ 5 + 1 ∨
      ∃ s ∈ splitSentences (trim ("ab".toList)), "ab".toList = trim s :=
  chunker_size_bound_amended ("ab".toList) 5 ("ab".toList) (by decide)

/-- C6 as stated is false: concatenating the chunks does not reproduce the
input verbatim, because inter-sentence whitespace is collapsed to a single
space (and outer whitespace is trimmed). -/
theorem chunker_concat_counterexample :
    (splitContentIntoChunks ("a.  b.".toList) 100).flatten ≠ "a.  b.".toList := by
  decide

/-- C6 amended: concatenating the chunks reproduces the input text up to
whitespace, i.e. the non-whitespace characters are preserved verbatim and in
order, while whitespace runs may be trimmed or collapsed. -/
theorem chunker_concat_modulo_ws (content : List Char) (maxChunkSize : Nat) :
    removeWS (splitContentIntoChunks content maxChunkSize).flatten =
      removeWS content := by
  rw [splitContentIntoChunks, chunksLoop_flatten, splitSentences_flatten,
    removeWS_trim]
  rfl

/-! ### Script sequencer lemmas -/

theorem delim_all_ws : ∀ c ∈ delim, isWS c = true := by decide

theorem ltrim_append_of {s : List Char} (y : List Char) (hne : s ≠ [])
    (hs : ltrim s = s) : ltrim (s ++ y) = s ++ y := by
  cases s with
  | nil => exact absurd rfl hne
  | cons a t =>
    have ha : isWS a = false := ltrim_cons_head hs
    simp [ltrim, List.cons_append, List.dropWhile_cons, ha]

theorem intercalate_one (s : List Char) : List.intercalate delim [s] = s := by
  simp [List.intercalate]

theorem intercalate_two (s b : List Char) (bs : List (List Char)) :
    List.intercalate delim (s :: b :: bs) =
      s ++ delim ++ List.intercalate delim (b :: bs) := by
  simp [List.intercalate, List.intersperse_cons_cons, List.append_assoc]

theorem flatten_delim_head_nonWS {b : List Char} (bs : List (List Char))
    (hb : b ≠ []) (hbl : ltrim b = b) :
    ltrim (((b :: bs).map (fun s => s ++ delim)).flatten) =
      ((b :: bs).map (fun s => s ++ delim)).flatten := by
  have h1 : ((b :: bs).map (fun s => s ++ delim)).flatten =
      b ++ (delim ++ (bs.map (fun s => s ++ delim)).flatten) := by
    simp [List.append_assoc]
  rw [h1, ltrim_append_of _ hb hbl]

theorem trim_flatten_delim : ∀ (l : List (List Char)), l ≠ [] →
    (∀ s ∈ l, s ≠ [] ∧ ltrim s = s ∧ rtrim s = s) →
    trim ((l.map (fun s => s ++ delim)).flatten) = List.intercalate delim l := by
  intro l
  induction l with
  | nil => intro h; exact absurd rfl h
  | cons s rest ih =>
    intro _ hall
    obtain ⟨hsne, hsl, hsr⟩ := hall s (by simp)
    cases rest with
    | nil =>
      rw [intercalate_one]
      have h1 : ([s].map (fun s => s ++ delim)).flatten = s ++ delim := by simp
      rw [h1, trim, ltrim_append_of delim hsne hsl, rtrim_append_allWS s delim_all_ws,
        hsr]
    | cons b bs =>
      obtain ⟨hbne, hbl, hbr⟩ := hall b (by simp)
      have hbsgood : ∀ x ∈ b :: bs, x ≠ [] ∧ ltrim x = x ∧ rtrim x = x :=
        fun x hx => hall x (by simp [hx])
      have ihr := ih (List.cons_ne_nil b bs) hbsgood
      set F := ((b :: bs).map (fun s => s ++ delim)).flatten with hF
      have hFhead : ∃ c ∈ F, isWS c = false := by
        cases b with
        | nil => exact absurd rfl hbne
        | cons a t =>
          refine ⟨a, ?_, ltrim_cons_head hbl⟩
          rw [hF]
          simp [List.mem_append]
      have h2 : ((s :: b :: bs).map (fun x => x ++ delim)).flatten =
          (s ++ delim) ++ F := by simp [hF]
      rw [h2, trim]
      have h3 : ltrim ((s ++ delim) ++ F) = (s ++ delim) ++ F := by
        rw [show (s ++ delim) ++ F = s ++ (delim ++ F) by simp [List.append_assoc]]
        rw [ltrim_append_of _ hsne hsl]
      rw [h3, rtrim_append_left _ hFhead]
      have h4 : rtrim F = trim F := by
        rw [trim, flatten_delim_head_nonWS bs hbne hbl]
      rw [h4, ihr, intercalate_two]

theorem trim_of_trimmed {t : List Char} (h : trim t ≠ []) :
    trim t ≠ [] ∧ ltrim (trim t) = trim t ∧ rtrim (trim t) = trim t :=
  ⟨h, ltrim_trim t, rtrim_trim t⟩

theorem runSections_cons_success (t : List Char) (rs : List Resp) (st : ScriptState)
    (hcnt : ¬ 15 < st.sectionCount) (hemp : t.isEmpty = false) :
    runSections (Resp.text t :: rs) st =
      runSections rs
        { history := (st.history ++ [Turn.user continueMarker]) ++ [Turn.model (trim t)]
          fullScript := st.fullScript ++ trim t ++ delim
          sectionCount := st.sectionCount + 1
          events := st.events ++ [(st.sectionCount, trim t)] } := by
  rw [runSections, if_neg hcnt, hemp, if_neg Bool.false_ne_true]

theorem runSections_done (rs : List Resp) (st : ScriptState)
    (h : 15 < st.sectionCount) : runSections rs st = st := by
  cases rs with
  | nil => rfl
  | cons r rest =>
    cases r with
    | text t => rw [runSections, if_pos h]
    | noText => rw [runSections, if_pos h]
    | err status => rw [runSections, if_pos h]

theorem runSections_step_fail (r : Resp) (rs : List Resp) (st : ScriptState)
    (hfail : isSuccessResp r = false) :
    runSections (r :: rs) st = runSections rs st := by
  by_cases hcnt : 15 < st.sectionCount
  · rw [runSections_done (r :: rs) st hcnt, runSections_done rs st hcnt]
  · cases r with
    | text t =>
      have hemp : t.isEmpty = true := by simpa [isSuccessResp] using hfail
      rw [runSections, if_neg hcnt, hemp, if_pos rfl, List.dropLast_concat]
    | noText =>
      rw [runSections, if_neg hcnt, List.dropLast_concat]
    | err status =>
      rw [runSections, if_neg hcnt, List.dropLast_concat]

theorem runSections_all_success : ∀ (ts : List (List Char)) (st : ScriptState),
    st.sectionCount + ts.length = 16 →
    (∀ t ∈ ts, trim t ≠ []) →
    runSections (ts.map Resp.text) st =
      { history := st.history ++
          (ts.map (fun t => [Turn.user continueMarker, Turn.model (trim t)])).flatten
        fullScript := st.fullScript ++ (ts.map (fun t => trim t ++ delim)).flatten
        sectionCount := 16
        events := st.events ++
          List.zip (List.range' st.sectionCount ts.length) (ts.map trim) } := by
  intro ts
  induction ts with
  | nil =>
    intro st hcount _
    obtain ⟨h, f, k, e⟩ := st
    simp only [List.length_nil, Nat.add_zero] at hcount
    subst hcount
    simp [runSections]
  | cons t rest ih =>
    intro st hcount hall
    have ht : trim t ≠ [] := hall t (by simp)
    have htne : t ≠ [] := by
      intro h0
      rw [h0] at ht
      exact ht trim_nil
    have hcnt : ¬ 15 < st.sectionCount := by
      simp only [List.length_cons] at hcount
      omega
    have hemp : t.isEmpty = false := by
      rw [Bool.eq_false_iff]
      intro hx
      exact htne (List.isEmpty_iff.mp hx)
    rw [List.map_cons, runSections_cons_success t _ st hcnt hemp]
    rw [ih _ (by simp only [List.length_cons] at hcount; simp; omega)
      (fun x hx => hall x (by simp [hx]))]
    simp only [List.map_cons, List.flatten_cons, List.length_cons, List.range'_succ,
      List.zip_cons_cons]
    simp [List.append_assoc]

theorem runSections_history_invariant : ∀ (rs : List Resp) (st : ScriptState),
    st.history.length = 2 * st.sectionCount →
    (runSections rs st).history.length = 2 * (runSections rs st).sectionCount := by
  intro rs
  induction rs with
  | nil => intro st h; exact h
  | cons r rest ih =>
    intro st h
    by_cases hcnt : 15 < st.sectionCount
    · rw [runSections_done _ _ hcnt]
      exact h
    · cases r with
      | text t =>
        cases hemp : t.isEmpty with
        | true =>
          rw [runSections, if_neg hcnt, hemp, if_pos rfl, List.dropLast_concat]
          exact ih st h
        | false =>
          rw [runSections_cons_success t rest st hcnt hemp]
          refine ih _ ?_
          simp only [List.length_append, List.length_cons, List.length_nil]
          omega
      | noText =>
        rw [runSections, if_neg hcnt, List.dropLast_concat]
        exact ih st h
      | err status =>
        rw [runSections, if_neg hcnt, List.dropLast_concat]
        exact ih st h

/-- C1: with a stub whose outline call and all section calls return content
that is non-empty after trimming, a full run of the script sequencer returns
exactly the fifteen trimmed section contents joined by the three-newline
delimiter, with no leading or trailing delimiter, and emits exactly fifteen
section events carrying indices 1..15 in strictly increasing order paired
with the section contents. -/
theorem script_sequencer_success_run (prompt t0 : List Char) (ts : List (List Char))
    (h0 : trim t0 ≠ []) (hlen : ts.length = 15) (hne : ∀ t ∈ ts, trim t ≠ []) :
    ∃ st, generateScriptRun (Resp.text t0) (ts.map Resp.text) prompt =
        some (List.intercalate delim (ts.map trim), st) ∧
      st.events = List.zip (List.range' 1 15) (ts.map trim) ∧
      st.events.length = 15 := by
  have ht0 : t0 ≠ [] := by
    intro h
    rw [h] at h0
    exact h0 trim_nil
  have hemp : t0.isEmpty = false := by
    rw [Bool.eq_false_iff]
    intro hx
    exact ht0 (List.isEmpty_iff.mp hx)
  have hset := runSections_all_success ts (initState prompt (trim t0))
    (by simp [initState, hlen]) hne
  have hmap : ts.map (fun t => trim t ++ delim) =
      (ts.map trim).map (fun s => s ++ delim) := by
    rw [List.map_map]
    rfl
  have hscript : trim ((ts.map (fun t => trim t ++ delim)).flatten) =
      List.intercalate delim (ts.map trim) := by
    rw [hmap]
    refine trim_flatten_delim (ts.map trim) ?_ ?_
    · intro h
      have h2 := congrArg List.length h
      simp [hlen] at h2
    · intro s hs
      obtain ⟨t, ht, rfl⟩ := List.mem_map.mp hs
      exact trim_of_trimmed (hne t ht)
  refine ⟨runSections (ts.map Resp.text) (initState prompt (trim t0)), ?_, ?_, ?_⟩
  · rw [generateScriptRun, hemp, if_neg Bool.false_ne_true, hset]
    simp only [initState, List.nil_append]
    rw [hscript]
  · rw [hset]
    simp [initState, hlen]
  · rw [hset]
    simp [initState, hlen]

/-- Witness for C1 at a concrete always-succeeding stub. -/
theorem script_sequencer_success_witness :
    ∃ st, generateScriptRun (Resp.text ("o".toList))
        ((List.replicate 15 ("s".toList)).map Resp.text) [] =
      some (List.intercalate delim ((List.replicate 15 ("s".toList)).map trim), st) ∧
      st.events = List.zip (List.range' 1 15) ((List.replicate 15 ("s".toList)).map trim) ∧
      st.events.length = 15 :=
  script_sequencer_success_run [] ("o".toList) (List.replicate 15 ("s".toList))
    (by decide) (by decide) (by decide)

/-- C2: during a sequencing run the history is append-only except that a
failed section attempt (empty or missing content, or a thrown error) removes
the speculative requester turn again, leaving the state exactly as before the
attempt; consequently a completed run (section counter beyond 15) always
holds exactly 2 * (15 + 1) = 32 turns, whatever transient failures occurred
along the way. -/
theorem script_history_rollback_and_length :
    (∀ (r : Resp) (st : ScriptState), isSuccessResp r = false →
      runSections [r] st = st) ∧
    (∀ (sectionResps : List Resp) (prompt outline : List Char),
      (runSections sectionResps (initState prompt outline)).sectionCount = 16 →
      (runSections sectionResps (initState prompt outline)).history.length = 2 * (15 + 1)) := by
  constructor
  · intro r st hf
    rw [runSections_step_fail r [] st hf]
    rfl
  · intro rs prompt outline hdone
    have h0 : (initState prompt outline).history.length =
        2 * (initState prompt outline).sectionCount := by
      simp [initState]
    have hinv := runSections_history_invariant rs (initState prompt outline) h0
    rw [hdone] at hinv
    omega

/-- Witness for C2: a stub succeeding except for one thrown failure at the
third section still completes with exactly 32 history turns. -/
theorem script_history_rollback_witness :
    (runSections (List.replicate 2 (Resp.text ("s".toList)) ++ Resp.err 503 ::
        List.replicate 13 (Resp.text ("s".toList)))
      (initState [] ("o".toList))).history.length = 2 * (15 + 1) :=
  script_history_rollback_and_length.2
    (List.replicate 2 (Resp.text ("s".toList)) ++ Resp.err 503 ::
      List.replicate 13 (Resp.text ("s".toList))) [] ("o".toList) (by decide)

/-! ### WAV codec lemmas -/

theorem getD_drop_eq (b : List Nat) (n i : Nat) :
    b.getD (n + i) 0 = (b.drop n).getD i 0 := by
  rw [List.getD_eq_getElem?_getD, List.getD_eq_getElem?_getD, List.getElem?_drop]

theorem readUInt32LE_of_drop {b : List Nat} {n x0 x1 x2 x3 : Nat} {rest : List Nat}
    (h : b.drop n = x0 :: x1 :: x2 :: x3 :: rest) :
    readUInt32LE b n = x0 + 256 * x1 + 65536 * x2 + 16777216 * x3 := by
  have h0 := getD_drop_eq b n 0
  have h1 := getD_drop_eq b n 1
  have h2 := getD_drop_eq b n 2
  have h3 := getD_drop_eq b n 3
  rw [h] at h0 h1 h2 h3
  simp only [List.getD_cons_zero, List.getD_cons_succ, Nat.add_zero] at h0 h1 h2 h3
  unfold readUInt32LE
  rw [h0, h1, h2, h3]

theorem createWavHeader_length (T : Nat) (o : WavConversionOptions) :
    (createWavHeader T o).length = 44 := rfl

theorem createWavHeader_drop40 (T : Nat) (o : WavConversionOptions) :
    (createWavHeader T o).drop 40 =
      [T % 256, T / 256 % 256, T / 65536 % 256, T / 16777216 % 256] := rfl

/-- C3: joining a single WAV fragment yields that fragment verbatim; joining
two or more fragments that share the first fragment's format yields an output
whose first 44 bytes are a header built from the first fragment's format, whose
declared data-length field (the little-endian 32-bit value at offset 40) equals
the sum of the inputs' post-header lengths, and whose data region is exactly the
inputs' post-header regions concatenated in input order.  The joinWritesInRange
hypothesis restricts the statement to inputs where the source's header reads and
Buffer writes do not throw a RangeError, the domain on which the byte-level
model of createWavHeader is faithful. -/
theorem joinWav_spec (f g : List Nat) (rest : List (List Nat))
    (hfmt : ∀ x ∈ g :: rest, extractWavFormat x = extractWavFormat f)
    (hrange : joinWritesInRange f
      (((f :: g :: rest).map (fun x => (x.drop 44).length)).sum)) :
    joinWavFiles [f] = some f ∧
    ∃ out, joinWavFiles (f :: g :: rest) = some out ∧
      out.take 44 = createWavHeader
        (((f :: g :: rest).map (fun x => (x.drop 44).length)).sum)
        (extractWavFormat f) ∧
      readUInt32LE out 40 =
        ((f :: g :: rest).map (fun x => (x.drop 44).length)).sum ∧
      out.drop 44 = ((f :: g :: rest).map (fun x => x.drop 44)).flatten := by
  have hT : ((f :: g :: rest).map (fun x => (x.drop 44).length)).sum < 2 ^ 32 := by
    obtain ⟨-, -, -, -, -, -, h7⟩ := hrange
    omega
  have hTT : (((f :: g :: rest).map (fun b => b.drop 44)).map List.length).sum =
      ((f :: g :: rest).map (fun x => (x.drop 44).length)).sum := by
    rw [List.map_map]
    rfl
  refine ⟨rfl, _, rfl, ?_, ?_, ?_⟩
  · rw [hTT, List.take_left' (createWavHeader_length _ _)]
  · set T := ((f :: g :: rest).map (fun x => (x.drop 44).length)).sum with hTdef
    have hdrop : (createWavHeader
        ((((f :: g :: rest).map (fun b => b.drop 44)).map List.length).sum)
        (extractWavFormat f) ++
        ((f :: g :: rest).map (fun b => b.drop 44)).flatten).drop 40 =
        T % 256 :: T / 256 % 256 :: T / 65536 % 256 :: T / 16777216 % 256 ::
          ((f :: g :: rest).map (fun b => b.drop 44)).flatten := by
      rw [List.drop_append_of_le_length (by rw [createWavHeader_length]; omega)]
      rw [hTT, createWavHeader_drop40]
      rfl
    rw [readUInt32LE_of_drop hdrop]
    omega
  · rw [List.drop_left' (createWavHeader_length _ _)]

/-- Witness for C3 on two concrete fragments sharing format (1, 24000, 16). -/
theorem joinWav_spec_witness :
    joinWavFiles [createWavHeader 2 ⟨1, 24000, 16⟩ ++ [10, 20]] =
        some (createWavHeader 2 ⟨1, 24000, 16⟩ ++ [10, 20]) ∧
    ∃ out, joinWavFiles [createWavHeader 2 ⟨1, 24000, 16⟩ ++ [10, 20],
        createWavHeader 3 ⟨1, 24000, 16⟩ ++ [30, 40, 50]] = some out ∧
      out.take 44 = createWavHeader
        ((([createWavHeader 2 ⟨1, 24000, 16⟩ ++ [10, 20],
            createWavHeader 3 ⟨1, 24000, 16⟩ ++ [30, 40, 50]]).map
          (fun x => (x.drop 44).length)).sum)
        (extractWavFormat (createWavHeader 2 ⟨1, 24000, 16⟩ ++ [10, 20])) ∧
      readUInt32LE out 40 =
        (([createWavHeader 2 ⟨1, 24000, 16⟩ ++ [10, 20],
            createWavHeader 3 ⟨1, 24000, 16⟩ ++ [30, 40, 50]]).map
          (fun x => (x.drop 44).length)).sum ∧
      out.drop 44 = (([createWavHeader 2 ⟨1, 24000, 16⟩ ++ [10, 20],
          createWavHeader 3 ⟨1, 24000, 16⟩ ++ [30, 40, 50]]).map
        (fun x => x.drop 44)).flatten :=
  joinWav_spec (createWavHeader 2 ⟨1, 24000, 16⟩ ++ [10, 20])
    (createWavHeader 3 ⟨1, 24000, 16⟩ ++ [30, 40, 50]) []
    (by decide) (by unfold joinWritesInRange; decide)

/-- C10: joining an empty list of fragments returns immediately, writing
nothing to the output location and raising no error (the modeled result is
none, the early return of line 164). -/
theorem joinWav_empty : joinWavFiles [] = none := rfl

/-! ### Backoff retrier lemmas -/

theorem retryAux_fail_step (fn : Nat → AttemptResult α)
    (mr bd attempt fuel status : Nat) (hint : Option Nat)
    (h : fn attempt = AttemptResult.fail status hint) :
    retryAux fn mr bd attempt (fuel + 1) =
      (if status = 503 ∧ attempt < mr then
        ((retryAux fn mr bd (attempt + 1) fuel).1,
          min (bd * 2 ^ attempt) 120000 :: (retryAux fn mr bd (attempt + 1) fuel).2)
      else if status = 429 ∧ attempt < mr then
        ((retryAux fn mr bd (attempt + 1) fuel).1,
          hintDelay hint bd attempt :: (retryAux fn mr bd (attempt + 1) fuel).2)
      else (RetryOutcome.raised status, [])) := by
  rw [retryAux, h]

theorem retryAux_raises (maxRetries baseDelay : Nat) (fn : Nat → AttemptResult α)
    (st : Nat → Nat) (hint : Nat → Option Nat)
    (hfail : ∀ i, i ≤ maxRetries → fn i = AttemptResult.fail (st i) (hint i))
    (hretry : ∀ i, i ≤ maxRetries → st i = 503 ∨ st i = 429) :
    ∀ (fuel attempt : Nat), attempt + fuel = maxRetries + 1 → 1 ≤ fuel →
    (retryAux fn maxRetries baseDelay attempt fuel).1 =
      RetryOutcome.raised (st maxRetries) := by
  intro fuel
  induction fuel with
  | zero => intro attempt _ h1; omega
  | succ f ihf =>
    intro attempt hsum _
    have hle : attempt ≤ maxRetries := by omega
    rw [retryAux_fail_step fn maxRetries baseDelay attempt f (st attempt)
      (hint attempt) (hfail attempt hle)]
    rcases Nat.lt_or_ge attempt maxRetries with hlt | hge
    · rcases hretry attempt hle with h503 | h429
      · rw [if_pos ⟨h503, hlt⟩]
        exact ihf (attempt + 1) (by omega) (by omega)
      · have hn1 : ¬(st attempt = 503 ∧ attempt < maxRetries) := by omega
        rw [if_neg hn1, if_pos ⟨h429, hlt⟩]
        exact ihf (attempt + 1) (by omega) (by omega)
    · have heq : attempt = maxRetries := by omega
      have hn1 : ¬(st attempt = 503 ∧ attempt < maxRetries) := by omega
      have hn2 : ¬(st attempt = 429 ∧ attempt < maxRetries) := by omega
      rw [if_neg hn1, if_neg hn2, heq]

/-- C4 as stated is false: an operation failing with retryable status 503 on
every one of the maxRetries + 1 attempts makes retryWithBackoff rethrow the
raw last error (status 503) rather than raise the dedicated
Max-retries-exceeded error, which is unreachable on this path because the
final attempt's failure is rethrown inside the loop. -/
theorem retry_exhausted_counterexample :
    (retryWithBackoff (fun _ => AttemptResult.fail 503 none) 2 2000
      : RetryOutcome Unit × List Nat).1 = RetryOutcome.raised 503 ∧
    (RetryOutcome.raised 503 : RetryOutcome Unit) ≠
      RetryOutcome.maxRetriesExceeded := by
  decide

/-- C4 amended: when every attempt up to and including attempt maxRetries
fails with a retryable classification (status 503 or 429), the retrier stops
after maxRetries + 1 attempts and surfaces the raw error of the last attempt;
the dedicated Max-retries-exceeded error is never surfaced on this path. -/
theorem retry_exhausted_amended (maxRetries baseDelay : Nat)
    (fn : Nat → AttemptResult α) (st : Nat → Nat) (hint : Nat → Option Nat)
    (hfail : ∀ i, i ≤ maxRetries → fn i = AttemptResult.fail (st i) (hint i))
    (hretry : ∀ i, i ≤ maxRetries → st i = 503 ∨ st i = 429) :
    (retryWithBackoff fn maxRetries baseDelay).1 =
      RetryOutcome.raised (st maxRetries) ∧
    (retryWithBackoff fn maxRetries baseDelay).1 ≠
      RetryOutcome.maxRetriesExceeded := by
  have h := retryAux_raises maxRetries baseDelay fn st hint hfail hretry
    (maxRetries + 1) 0 (by omega) (by omega)
  have h2 : (retryWithBackoff fn maxRetries baseDelay).1 =
      RetryOutcome.raised (st maxRetries) := h
  refine ⟨h2, ?_⟩
  rw [h2]
  intro hx
  cases hx

/-- Witness for the amended C4 with an all-503 stub and the source's default
policy (5 retries, 2000 ms base delay). -/
theorem retry_exhausted_witness :
    (retryWithBackoff (fun _ => AttemptResult.fail 503 none) 5 2000
      : RetryOutcome Unit × List Nat).1 = RetryOutcome.raised 503 ∧
    (retryWithBackoff (fun _ => AttemptResult.fail 503 none) 5 2000
      : RetryOutcome Unit × List Nat).1 ≠ RetryOutcome.maxRetriesExceeded :=
  retry_exhausted_amended 5 2000 (fun _ => AttemptResult.fail 503 none)
    (fun _ => 503) (fun _ => none) (fun _ _ => rfl) (fun _ _ => Or.inl rfl)

/-! ### Rate limiter lemmas -/

theorem foldl_min_mem : ∀ (ts : List Int) (t : Int), ts.foldl min t ∈ t :: ts := by
  intro ts
  induction ts with
  | nil => intro t; simp
  | cons a as ih =>
    intro t
    have h := ih (min t a)
    rcases List.mem_cons.mp h with h1 | h1
    · rcases min_choice t a with h2 | h2 <;>
        simp only [List.foldl_cons] <;> rw [h1, h2] <;> simp
    · simp only [List.foldl_cons]
      exact List.mem_cons.mpr (Or.inr (List.mem_cons.mpr (Or.inr h1)))

theorem oldestOf_mem {l : List Int} (h : l ≠ []) : oldestOf l ∈ l := by
  cases l with
  | nil => exact absurd rfl h
  | cons t ts => exact foldl_min_mem ts t

theorem evictOld_mem {windowMs now : Int} {requests : List Int} {x : Int}
    (h : x ∈ evictOld windowMs requests now) : now - x < windowMs := by
  rw [evictOld, List.mem_filter] at h
  simpa using h.2

theorem waitIfNeeded_noWait (maxRequests : Nat) (windowMs : Int)
    (requests : List Int) (now : Int)
    (h : (evictOld windowMs requests now).length < maxRequests) :
    waitIfNeeded maxRequests windowMs requests now =
      (0, evictOld windowMs requests now ++ [now]) := by
  simp only [waitIfNeeded]
  rw [if_neg (by omega)]

theorem waitIfNeeded_wait (maxRequests : Nat) (windowMs : Int)
    (requests : List Int) (now : Int) (hmax : 0 < maxRequests)
    (h : maxRequests ≤ (evictOld windowMs requests now).length) :
    waitIfNeeded maxRequests windowMs requests now =
      (windowMs - (now - oldestOf (evictOld windowMs requests now)) + 1000,
        evictOld windowMs requests now ++ [now]) := by
  have hne : evictOld windowMs requests now ≠ [] := by
    intro h0
    rw [h0] at h
    simp at h
    omega
  have hmem := oldestOf_mem hne
  have hlt := evictOld_mem hmem
  simp only [waitIfNeeded]
  rw [if_pos h, if_pos (by omega)]

theorem runAdmits_instant (maxRequests : Nat) (windowMs : Int) :
    ∀ (arrivals st : List Int),
    st.length + arrivals.length ≤ maxRequests →
    (∀ a ∈ arrivals, ∀ b ∈ st, a - b < windowMs) →
    (∀ a ∈ arrivals, ∀ b ∈ arrivals, a - b < windowMs) →
    (runAdmits maxRequests windowMs arrivals st).1 =
      List.replicate arrivals.length 0 ∧
    (runAdmits maxRequests windowMs arrivals st).2 = st ++ arrivals := by
  intro arrivals
  induction arrivals with
  | nil =>
    intro st _ _ _
    exact ⟨rfl, by simp [runAdmits]⟩
  | cons t ts ih =>
    intro st hlen hcross hself
    have hkeep : evictOld windowMs st t = st := by
      rw [evictOld, List.filter_eq_self]
      intro b hb
      simp only [decide_eq_true_eq]
      exact hcross t (by simp) b hb
    have hwait : waitIfNeeded maxRequests windowMs st t = (0, st ++ [t]) := by
      have hlt : (evictOld windowMs st t).length < maxRequests := by
        rw [hkeep]
        simp only [List.length_cons] at hlen
        omega
      rw [waitIfNeeded_noWait _ _ _ _ hlt, hkeep]
    obtain ⟨ih1, ih2⟩ := ih (st ++ [t])
      (by simp only [List.length_append, List.length_cons, List.length_nil] at hlen ⊢; omega)
      (by
        intro a ha b hb
        rcases List.mem_append.mp hb with hb1 | hb1
        · exact hcross a (by simp [ha]) b hb1
        · have hbt : b = t := by simpa using hb1
          subst hbt
          exact hself a (by simp [ha]) b (by simp))
      (fun a ha b hb => hself a (by simp [ha]) b (by simp [hb]))
    rw [runAdmits, hwait]
    refine ⟨?_, ?_⟩
    · simp only [ih1, List.length_cons, List.replicate_succ]
    · simp only [ih2, List.append_assoc, List.singleton_append]

/-- C7 as stated is false in its recorded-timestamp conjunct: with one slot,
a 60-second window, a stored timestamp 0 and an arrival at 10, the limiter
computes a positive wait of 60990 ms but records the entry instant 10, not
the post-wait instant 10 + 60990. -/
theorem rate_limiter_counterexample :
    waitIfNeeded 1 60000 [0] 10 = (60990, [0, 10]) ∧
      (10 : Int) ≠ 10 + 60990 := by
  decide

/-- C7 amended: after evicting timestamps outside the window, a call with
fewer than maxRequests remaining timestamps proceeds immediately; otherwise
it waits windowDuration - (now - oldestRemaining) + 1000; in both cases the
timestamp recorded is the arrival instant observed on entry (before any
wait); in the waiting case the call resumes only after the oldest remaining
timestamp has exited the window; and any batch of at most maxRequests
arrivals within one window starting from an idle limiter is admitted with
zero wait. -/
theorem rate_limiter_amended (maxRequests : Nat) (windowMs : Int)
    (requests : List Int) (now : Int) (hmax : 0 < maxRequests) :
    ((evictOld windowMs requests now).length < maxRequests →
      waitIfNeeded maxRequests windowMs requests now =
        (0, evictOld windowMs requests now ++ [now])) ∧
    (maxRequests ≤ (evictOld windowMs requests now).length →
      waitIfNeeded maxRequests windowMs requests now =
        (windowMs - (now - oldestOf (evictOld windowMs requests now)) + 1000,
          evictOld windowMs requests now ++ [now]) ∧
      oldestOf (evictOld windowMs requests now) + windowMs <
        now + (waitIfNeeded maxRequests windowMs requests now).1) ∧
    (∀ arrivals : List Int, arrivals.length ≤ maxRequests →
      (∀ a ∈ arrivals, ∀ b ∈ arrivals, a - b < windowMs) →
      (runAdmits maxRequests windowMs arrivals []).1 =
        List.replicate arrivals.length 0 ∧
      (runAdmits maxRequests windowMs arrivals []).2 = arrivals) := by
  refine ⟨waitIfNeeded_noWait maxRequests windowMs requests now, ?_, ?_⟩
  · intro h
    have hw := waitIfNeeded_wait maxRequests windowMs requests now hmax h
    refine ⟨hw, ?_⟩
    rw [hw]
    omega
  · intro arrivals hlen hwin
    have h := runAdmits_instant maxRequests windowMs arrivals []
      (by simpa using hlen) (by intro a _ b hb; cases hb) hwin
    exact ⟨h.1, by simpa using h.2⟩

/-- Witness for the amended C7: an idle limiter with ten slots admits three
calls inside one minute instantly, and a full limiter delays past the oldest
timestamp's window exit. -/
theorem rate_limiter_amended_witness :
    (runAdmits 10 60000 [0, 5, 10] []).1 = List.replicate 3 0 ∧
      (runAdmits 10 60000 [0, 5, 10] []).2 = [0, 5, 10] :=
  (rate_limiter_amended 10 60000 [] 0 (by decide)).2.2 [0, 5, 10]
    (by decide) (by decide)

/-! ### Image batch lemmas -/

theorem mem_collectImagesFrom : ∀ (imgs : List (Option (List Nat))) (i j : Nat)
    (p : Nat × Nat),
    p ∈ collectImagesFrom imgs i j ↔
      p.1 = i ∧ ∃ k, p.2 = j + k ∧ ∃ b, imgs.get? k = some (some b) := by
  intro imgs
  induction imgs with
  | nil =>
    intro i j p
    simp [collectImagesFrom]
  | cons o rest ih =>
    intro i j p
    cases o with
    | some b =>
      rw [collectImagesFrom]
      constructor
      · intro h
        rcases List.mem_cons.mp h with h1 | h1
        · subst h1
          exact ⟨rfl, 0, by simp, b, rfl⟩
        · obtain ⟨h2, k, h3, b2, h4⟩ := (ih i (j + 1) p).mp h1
          exact ⟨h2, k + 1, by omega, b2, by simpa using h4⟩
      · rintro ⟨h2, k, h3, b2, h4⟩
        cases k with
        | zero =>
          apply List.mem_cons.mpr
          left
          have hp : p = (p.1, p.2) := rfl
          rw [hp, h2, h3]
          simp
        | succ k2 =>
          apply List.mem_cons.mpr
          right
          refine (ih i (j + 1) p).mpr ⟨h2, k2, by omega, b2, by simpa using h4⟩
    | none =>
      rw [collectImagesFrom]
      rw [ih i (j + 1) p]
      constructor
      · rintro ⟨h2, k, h3, b2, h4⟩
        exact ⟨h2, k + 1, by omega, b2, by simpa using h4⟩
      · rintro ⟨h2, k, h3, b2, h4⟩
        cases k with
        | zero => simp at h4
        | succ k2 => exact ⟨h2, k2, by omega, b2, by simpa using h4⟩

theorem mem_processPrompts : ∀ (prompts : List (List Char))
    (results : Nat → ImageGenResult) (base : Nat) (p : Nat × Nat),
    p ∈ processPrompts results prompts base ↔
      ∃ d, d < prompts.length ∧ p.1 = base + d ∧
        ∃ imgs, results (base + d) = ImageGenResult.ok imgs ∧
          ∃ b, imgs.get? p.2 = some (some b) := by
  intro prompts
  induction prompts with
  | nil =>
    intro results base p
    simp [processPrompts]
  | cons q rest ih =>
    intro results base p
    rw [processPrompts, List.mem_append, ih results (base + 1) p]
    constructor
    · intro h
      rcases h with h1 | h1
      · cases hr : results base with
        | err => rw [hr] at h1; cases h1
        | ok imgs =>
          rw [hr] at h1
          obtain ⟨h2, k, h3, b, h4⟩ := (mem_collectImagesFrom imgs base 0 p).mp h1
          refine ⟨0, by simp, by simpa using h2, imgs, by simpa using hr, b, ?_⟩
          rw [show p.2 = k by omega]
          exact h4
      · obtain ⟨d, hd, h2, imgs, h3, b, h4⟩ := h1
        exact ⟨d + 1, by simpa using hd, by omega, imgs,
          by rw [show base + (d + 1) = base + 1 + d by omega]; exact h3, b, h4⟩
    · rintro ⟨d, hd, h2, imgs, h3, b, h4⟩
      cases d with
      | zero =>
        left
        rw [show base + 0 = base by omega] at h3
        rw [h3]
        exact (mem_collectImagesFrom imgs base 0 p).mpr
          ⟨by simpa using h2, p.2, by omega, b, h4⟩
      | succ d2 =>
        right
        refine ⟨d2, by simp at hd; omega, by omega, imgs, ?_, b, h4⟩
        rw [show base + 1 + d2 = base + (d2 + 1) by omega]
        exact h3

theorem mem_saved_iff (text : List Char) (results : Nat → ImageGenResult)
    (p : Nat × Nat) :
    p ∈ processPrompts results (derivePrompts text) 0 ↔
      producedAt (derivePrompts text) results p.1 p.2 := by
  rw [mem_processPrompts]
  unfold producedAt
  constructor
  · rintro ⟨d, hd, h2, imgs, h3, b, h4⟩
    have hp1 : p.1 = d := by omega
    subst hp1
    exact ⟨hd, imgs, by simpa using h3, b, h4⟩
  · rintro ⟨hlt, imgs, h3, b, h4⟩
    exact ⟨p.1, hlt, by omega, imgs, by simpa using h3, b, h4⟩

/-- C8: a failure on one sub-prompt of the image batch is skipped while the
remaining sub-prompts are still processed; the batch raises its dedicated
error if and only if no image at all was produced across the sub-prompts, and
on success it returns exactly the artifact identifiers of the images that
were produced. -/
theorem image_batch_skip_and_error_iff (text : List Char)
    (results : Nat → ImageGenResult) :
    ((∃ e, generateImageBatch text results = Except.error e) ↔
      ∀ i j, ¬ producedAt (derivePrompts text) results i j) ∧
    (∀ l, generateImageBatch text results = Except.ok l →
      ∀ p : Nat × Nat, p ∈ l ↔ producedAt (derivePrompts text) results p.1 p.2) := by
  constructor
  · constructor
    · rintro ⟨e, he⟩ i j hprod
      by_cases hs : (processPrompts results (derivePrompts text) 0).isEmpty
      · have hnil : processPrompts results (derivePrompts text) 0 = [] :=
          List.isEmpty_iff.mp hs
        have hmem := (mem_saved_iff text results (i, j)).mpr hprod
        rw [hnil] at hmem
        cases hmem
      · unfold generateImageBatch at he
        rw [if_neg hs] at he
        cases he
    · intro hnone
      have hnil : processPrompts results (derivePrompts text) 0 = [] := by
        rw [List.eq_nil_iff_forall_not_mem]
        intro p hp
        exact hnone p.1 p.2 ((mem_saved_iff text results p).mp hp)
      refine ⟨"No images were successfully generated.".toList, ?_⟩
      unfold generateImageBatch
      rw [hnil]
      rfl
  · intro l hl p
    unfold generateImageBatch at hl
    by_cases hs : (processPrompts results (derivePrompts text) 0).isEmpty
    · rw [if_pos hs] at hl
      cases hl
    · rw [if_neg hs] at hl
      injection hl with hl2
      subst hl2
      exact mem_saved_iff text results p

/-- Witness for C8: with three derived sub-prompts of which only the second
fails, the batch succeeds and returns exactly the artifacts of sub-prompts 1
and 3 (zero-indexed 0 and 2). -/
theorem image_batch_skip_witness :
    generateImageBatch ("p1\np2\np3".toList)
        (fun i => if i == 1 then ImageGenResult.err
          else ImageGenResult.ok [some [7]]) =
      Except.ok [(0, 0), (2, 0)] ∧
    (((0 : Nat), (0 : Nat)) ∈ [((0 : Nat), (0 : Nat)), (2, 0)] ↔
      producedAt (derivePrompts ("p1\np2\np3".toList))
        (fun i => if i == 1 then ImageGenResult.err
          else ImageGenResult.ok [some [7]]) 0 0) :=
  ⟨rfl,
    (image_batch_skip_and_error_iff ("p1\np2\np3".toList)
      (fun i => if i == 1 then ImageGenResult.err
        else ImageGenResult.ok [some [7]])).2 [(0, 0), (2, 0)] rfl (0, 0)⟩

end YTool
